import Mathlib

/-!
Verification of the slug encoder (`slugify` / `slugify_normal`) from
`src/src/lib.rs`, shallowly embedded in Lean.

The encoder consumes Unicode characters; non-ASCII characters are run
through an external transliteration table (`deunicode_char`), modelled
here as an abstract parameter `t : Translit`.  Bytes are modelled as
`Nat` values; the Rust `Vec<u8>` output buffer is a `List Nat` and the
final `String::from_utf8_unchecked` is `bytesToString`.
-/

/-- The external transliteration collaborator
`deunicode_char : char -> Option<&str>`, viewed at the byte level
(`.as_bytes()` of the returned string). -/
abbrev Translit := Char → Option (List Nat)

/-- State of the strict-mode scan: the output buffer `slug` and the
`prev_is_dash` flag (initialised to `true`). -/
structure SState where
  slug : List Nat
  prev_is_dash : Bool
deriving DecidableEq

/-- Strict-mode `push_char` closure from `_slugify` (src/src/lib.rs:30-49). -/
def pushCharS (st : SState) (x : Nat) : SState :=
  if (97 ≤ x ∧ x ≤ 122) ∨ (48 ≤ x ∧ x ≤ 57) then
    { slug := st.slug ++ [x], prev_is_dash := false }
  else if 65 ≤ x ∧ x ≤ 90 then
    { slug := st.slug ++ [x - 65 + 97], prev_is_dash := false }
  else if st.prev_is_dash then st
  else { slug := st.slug ++ [45], prev_is_dash := true }

/-- Feeding a byte sequence through `push_char`. -/
def pushBytesS (st : SState) (l : List Nat) : SState :=
  l.foldl pushCharS st

/-- Processing one input character in strict mode
(src/src/lib.rs:51-59): ASCII characters are pushed directly, other
characters go through the transliteration table with fallback "-". -/
def processCharS (t : Translit) (st : SState) (c : Char) : SState :=
  if c.toNat < 128 then pushCharS st c.toNat
  else pushBytesS st ((t c).getD [45])

/-- Initial strict-mode state (`prev_is_dash` starts `true`,
src/src/lib.rs:28). -/
def initS : SState := ⟨[], true⟩

/-- Final trim of `_slugify` (src/src/lib.rs:64-66): pop one trailing
`'-'` if present. -/
def trimStrict (l : List Nat) : List Nat :=
  if l.getLast? = some 45 then l.dropLast else l

/-- `String::from_utf8_unchecked` on an ASCII byte buffer. -/
def bytesToString (l : List Nat) : String :=
  ⟨l.map Char.ofNat⟩

/-- `_slugify` (src/src/lib.rs:25-70) as a byte-list producer. -/
def slugifyBytes (t : Translit) (cs : List Char) : List Nat :=
  trimStrict (cs.foldl (processCharS t) initS).slug

/-- `slugify` / `_slugify` (src/src/lib.rs:20-70), parameterised by the
external transliteration table. -/
def slugify (t : Translit) (s : String) : String :=
  bytesToString (slugifyBytes t s.data)

/-- State of the lenient-mode scan (src/src/lib.rs:100-104). -/
structure NState where
  slug : List Nat
  prev_is_dash : Bool
  empty_space_was : Bool
  dot_was_before : Bool
deriving DecidableEq

/-- Lenient-mode `push_char` closure from `_slugify_normal`
(src/src/lib.rs:106-151); `leave` is the `leave_size` flag. -/
def pushCharN (leave : Bool) (st : NState) (x : Nat) : NState :=
  if (97 ≤ x ∧ x ≤ 122) ∨ (48 ≤ x ∧ x ≤ 57) then
    { slug := st.slug ++ [x], prev_is_dash := false,
      empty_space_was := false, dot_was_before := false }
  else if 65 ≤ x ∧ x ≤ 90 then
    { slug := st.slug ++ [if leave then x else x - 65 + 97],
      prev_is_dash := false, empty_space_was := false, dot_was_before := false }
  else if x = 32 ∨ x = 95 then
    if st.empty_space_was then st
    else { slug := st.slug ++ [x], prev_is_dash := false,
           empty_space_was := true, dot_was_before := false }
  else if x = 46 then
    if st.dot_was_before then st
    else { slug := st.slug ++ [46], prev_is_dash := false,
           empty_space_was := false, dot_was_before := true }
  else if st.prev_is_dash then st
  else { slug := st.slug ++ [45], prev_is_dash := true,
         empty_space_was := false, dot_was_before := false }

/-- Feeding a byte sequence through the lenient `push_char`. -/
def pushBytesN (leave : Bool) (st : NState) (l : List Nat) : NState :=
  l.foldl (pushCharN leave) st

/-- Processing one input character in lenient mode
(src/src/lib.rs:153-161). -/
def processCharN (t : Translit) (leave : Bool) (st : NState) (c : Char) : NState :=
  if c.toNat < 128 then pushCharN leave st c.toNat
  else pushBytesN leave st ((t c).getD [45])

/-- Initial lenient-mode state (src/src/lib.rs:102-104). -/
def initN : NState := ⟨[], true, true, false⟩

/-- Final trim loop of `_slugify_normal` (src/src/lib.rs:167-177):
repeatedly pop a trailing `'-'` or `' '`; modelled as removing the
maximal trailing run of such bytes. -/
def trimNormal : List Nat → List Nat
  | [] => []
  | a :: rest =>
    if (trimNormal rest).isEmpty && (a == 45 || a == 32) then []
    else a :: trimNormal rest

/-- `_slugify_normal` (src/src/lib.rs:99-181) as a byte-list producer. -/
def slugifyNormalBytes (t : Translit) (leave : Bool) (cs : List Char) : List Nat :=
  trimNormal (cs.foldl (processCharN t leave) initN).slug

/-- `slugify_normal` / `_slugify_normal` (src/src/lib.rs:94-181),
parameterised by the external transliteration table. -/
def slugify_normal (t : Translit) (s : String) (leave : Bool) : String :=
  bytesToString (slugifyNormalBytes t leave s.data)

/-- Lowercase ASCII letter or digit (the pass-through bytes of
`push_char`). -/
def isLowerDigit (x : Nat) : Bool :=
  (97 ≤ x && x ≤ 122) || (48 ≤ x && x ≤ 57)

/-- Bytes that may appear in a strict-mode slug. -/
def isStrictByte (x : Nat) : Bool :=
  isLowerDigit x || x == 45

/-- Space or underscore: the "whitespace class" of the lenient mode. -/
def isWsByte (x : Nat) : Bool :=
  x == 32 || x == 95

/-- Bytes that may appear in a lenient-mode slug (uppercase letters only
when `leave_size` is set). -/
def lenientByte (leave : Bool) (x : Nat) : Bool :=
  isLowerDigit x || (leave && (65 ≤ x && x ≤ 90)) ||
    x == 45 || x == 32 || x == 46 || x == 95

/-- `chainOk p l` holds when every pair of adjacent elements of `l`
satisfies `p`. -/
def chainOk (p : Nat → Nat → Bool) : List Nat → Bool
  | a :: b :: rest => p a b && chainOk p (b :: rest)
  | _ => true

/-- No two adjacent hyphens. -/
def dashOk (a b : Nat) : Bool := !(a == 45 && b == 45)

/-- Strict-mode no-double-dash condition. -/
def noDoubleDash (l : List Nat) : Bool := chainOk dashOk l

/-- Lenient-mode adjacency condition: no two adjacent hyphens, no two
adjacent whitespace-class bytes, no two adjacent dots. -/
def pairOkN (a b : Nat) : Bool :=
  !((a == 45 && b == 45) || (isWsByte a && isWsByte b) || (a == 46 && b == 46))

/-- Lenient-mode no-bad-adjacent-pair condition. -/
def noBadPairs (l : List Nat) : Bool := chainOk pairOkN l

/-- Invariant maintained by the strict scan: the buffer holds only
strict bytes, has no double dash, does not start with a dash, and
`prev_is_dash` tracks exactly "buffer empty or buffer ends in a dash". -/
def StrictInv (st : SState) : Prop :=
  st.slug.all isStrictByte = true ∧
  noDoubleDash st.slug = true ∧
  st.slug.head? ≠ some 45 ∧
  st.prev_is_dash = (st.slug.isEmpty || st.slug.getLast? == some 45)

/-- The strict-mode output shape: empty, or only lowercase
alphanumerics and hyphens, no double hyphen, no leading and no trailing
hyphen — the language of `^[a-z0-9]+(-[a-z0-9]+)*$` together with the
empty string. -/
def strictShape (l : List Nat) : Bool :=
  l.all isStrictByte && noDoubleDash l &&
    !(l.head? == some 45) && !(l.getLast? == some 45)

/-- Strict output shape, read off a `String` through its character
codes. -/
def strictShapeStr (s : String) : Bool :=
  strictShape (s.data.map Char.toNat)

/-- "The last emitted byte is whitespace-class", read off a
`getLast?`. -/
def wsLast (o : Option Nat) : Bool :=
  o == some 32 || o == some 95

/-- Invariant maintained by the lenient scan: alphabet, adjacency and
leading-byte constraints on the buffer, and the three flags tracking
exactly what the last emitted byte was. -/
def LInv (leave : Bool) (st : NState) : Prop :=
  st.slug.all (lenientByte leave) = true ∧
  noBadPairs st.slug = true ∧
  (st.slug.head? ≠ some 45 ∧ st.slug.head? ≠ some 32 ∧ st.slug.head? ≠ some 95) ∧
  st.prev_is_dash = (st.slug.isEmpty || st.slug.getLast? == some 45) ∧
  st.empty_space_was = (st.slug.isEmpty || wsLast st.slug.getLast?) ∧
  st.dot_was_before = (st.slug.getLast? == some 46)

/-- The lenient-mode output shape: characters drawn from the lenient
alphabet (uppercase only when case is preserved), no two adjacent
hyphens, whitespace-class bytes or dots, and no hyphen or space at
either end. -/
def lenientShape (leave : Bool) (l : List Nat) : Bool :=
  l.all (lenientByte leave) && noBadPairs l &&
    !(l.head? == some 45) && !(l.head? == some 32) &&
    !(l.getLast? == some 45) && !(l.getLast? == some 32)

/-- Lenient output shape, read off a `String` through its character
codes. -/
def lenientShapeStr (leave : Bool) (s : String) : Bool :=
  lenientShape leave (s.data.map Char.toNat)

/-- ASCII letter (either case) or digit: the bytes that are emitted
verbatim (possibly lowercased) rather than collapsed. -/
def isAlnumByte (x : Nat) : Bool :=
  isLowerDigit x || (65 ≤ x && x ≤ 90)

/-- Byte-level ASCII lowercasing (`x - b'A' + b'a'` on uppercase
letters, identity elsewhere). -/
def lowerByte (x : Nat) : Nat :=
  if 65 ≤ x ∧ x ≤ 90 then x - 65 + 97 else x

/-- Two character lists are case variants of one another: equal up to
the case of ASCII letters, position by position. -/
def caseVariants : List Char → List Char → Bool
  | [], [] => true
  | c :: cs, d :: ds => (lowerByte c.toNat == lowerByte d.toNat) && caseVariants cs ds
  | _, _ => false

/-- The value of `prev_is_dash` after replaying a clean byte list on
top of a state whose flag was `prev`. -/
def prevOut (prev : Bool) (L : List Nat) : Bool :=
  if L.isEmpty then prev else decide (L.getLast? = some 45)

/-- The ASCII byte sequence a single input character contributes to the
scan: the character itself when ASCII, otherwise its transliteration
with the fallback "-". -/
def charBytes (t : Translit) (c : Char) : List Nat :=
  if c.toNat < 128 then [c.toNat] else (t c).getD [45]

/-- Apply ASCII lowercasing to the buffer, keeping the flags. -/
def mapLowerN (st : NState) : NState :=
  ⟨st.slug.map lowerByte, st.prev_is_dash, st.empty_space_was, st.dot_was_before⟩

/-- ASCII lowercasing of a string: every uppercase ASCII letter is
shifted to its lowercase counterpart, all other characters are kept. -/
def asciiLowerString (s : String) : String :=
  ⟨s.data.map (fun c => Char.ofNat (lowerByte c.toNat))⟩

theorem getLast?_cons_ne {a : Nat} {l : List Nat} (h : l ≠ []) :
    (a :: l).getLast? = l.getLast? := by
  cases l with
  | nil => exact absurd rfl h
  | cons b r => exact List.getLast?_cons_cons

theorem getLast?_concat' (l : List Nat) (y : Nat) :
    (l ++ [y]).getLast? = some y := by
  induction l with
  | nil => rfl
  | cons a rest ih =>
    rw [List.cons_append, getLast?_cons_ne (by simp), ih]

theorem head?_append_ne {l m : List Nat} (h : l ≠ []) :
    (l ++ m).head? = l.head? := by
  cases l with
  | nil => exact absurd rfl h
  | cons a rest => rfl

theorem chainOk_concat {p : Nat → Nat → Bool} {y : Nat} :
    ∀ {l : List Nat}, chainOk p l = true →
      (∀ a, l.getLast? = some a → p a y = true) →
      chainOk p (l ++ [y]) = true
  | [], _, _ => rfl
  | [a], _, h2 => by
    simp only [List.cons_append, List.nil_append, chainOk, Bool.and_eq_true]
    exact ⟨h2 a rfl, trivial⟩
  | a :: b :: rest, h1, h2 => by
    simp only [chainOk, Bool.and_eq_true] at h1
    simp only [List.cons_append, chainOk, Bool.and_eq_true]
    refine ⟨h1.1, chainOk_concat h1.2 ?_⟩
    intro c hc
    exact h2 c (by rw [List.getLast?_cons_cons]; exact hc)

theorem chainOk_cons_of_head {p : Nat → Nat → Bool} {a : Nat} {l : List Nat}
    (h1 : chainOk p l = true) (h2 : ∀ b, l.head? = some b → p a b = true) :
    chainOk p (a :: l) = true := by
  cases l with
  | nil => rfl
  | cons b rest =>
    simp only [chainOk, Bool.and_eq_true]
    exact ⟨h2 b rfl, h1⟩

theorem chainOk_dropLast {p : Nat → Nat → Bool} :
    ∀ {l : List Nat}, chainOk p l = true → chainOk p l.dropLast = true
  | [], _ => rfl
  | [_], _ => rfl
  | a :: b :: rest, h => by
    simp only [chainOk, Bool.and_eq_true] at h
    rw [List.dropLast_cons₂]
    refine chainOk_cons_of_head (chainOk_dropLast h.2) ?_
    intro c hc
    cases rest with
    | nil => simp at hc
    | cons d rest' =>
      rw [List.dropLast_cons₂, List.head?_cons, Option.some_inj] at hc
      subst hc; exact h.1

theorem chainOk_last_pair {p : Nat → Nat → Bool} :
    ∀ {l : List Nat} {a b : Nat}, chainOk p l = true →
      l.dropLast.getLast? = some a → l.getLast? = some b → p a b = true
  | [], _, _, _, h2, _ => by simp at h2
  | [_], _, _, _, h2, _ => by simp at h2
  | x :: y :: rest, a, b, h1, h2, h3 => by
    simp only [chainOk, Bool.and_eq_true] at h1
    cases rest with
    | nil =>
      simp only [List.dropLast_cons₂, List.dropLast_single, List.getLast?_singleton,
        Option.some_inj] at h2
      simp only [List.getLast?_cons_cons, List.getLast?_singleton, Option.some_inj] at h3
      subst h2; subst h3; exact h1.1
    | cons z rest' =>
      rw [List.dropLast_cons₂] at h2
      have hne : (y :: z :: rest').dropLast ≠ [] := by
        rw [List.dropLast_cons₂]; exact List.cons_ne_nil _ _
      rw [getLast?_cons_ne hne] at h2
      rw [List.getLast?_cons_cons] at h3
      exact chainOk_last_pair h1.2 h2 h3

theorem head?_dropLast : ∀ (l : List Nat),
    l.dropLast = [] ∨ l.dropLast.head? = l.head?
  | [] => Or.inl rfl
  | [_] => Or.inl rfl
  | _ :: _ :: _ => by
    rw [List.dropLast_cons₂]
    exact Or.inr rfl

/-- Generic preservation of an invariant by `List.foldl`. -/
theorem foldl_inv {α β : Type} {f : α → β → α} {P : α → Prop}
    (h : ∀ st x, P st → P (f st x)) :
    ∀ (l : List β) (st : α), P st → P (l.foldl f st)
  | [], _, hst => hst
  | x :: rest, st, hst => foldl_inv h rest (f st x) (h st x hst)

theorem all_dropLast {q : Nat → Bool} :
    ∀ {l : List Nat}, l.all q = true → l.dropLast.all q = true
  | [], _ => rfl
  | [_], _ => rfl
  | a :: b :: rest, h => by
    simp only [List.all_cons, Bool.and_eq_true] at h
    rw [List.dropLast_cons₂]
    simp only [List.all_cons, Bool.and_eq_true]
    refine ⟨h.1, all_dropLast ?_⟩
    simp only [List.all_cons, Bool.and_eq_true]
    exact h.2

theorem trimNormal_all {q : Nat → Bool} :
    ∀ {l : List Nat}, l.all q = true → (trimNormal l).all q = true
  | [], _ => rfl
  | a :: rest, h => by
    simp only [List.all_cons, Bool.and_eq_true] at h
    rw [trimNormal]
    split
    · rfl
    · simp only [List.all_cons, Bool.and_eq_true]
      exact ⟨h.1, trimNormal_all h.2⟩

theorem trimNormal_head : ∀ (l : List Nat),
    trimNormal l = [] ∨ (trimNormal l).head? = l.head?
  | [] => Or.inl rfl
  | a :: rest => by
    rw [trimNormal]
    split
    · exact Or.inl rfl
    · exact Or.inr rfl

theorem trimNormal_chainOk {p : Nat → Nat → Bool} :
    ∀ {l : List Nat}, chainOk p l = true → chainOk p (trimNormal l) = true
  | [], _ => rfl
  | a :: rest, h => by
    rw [trimNormal]
    split
    · rfl
    · have hrest : chainOk p rest = true := by
        cases rest with
        | nil => rfl
        | cons b r =>
          have h' : (p a b && chainOk p (b :: r)) = true := h
          exact ((Bool.and_eq_true _ _).mp h').2
      refine chainOk_cons_of_head (trimNormal_chainOk hrest) ?_
      intro b hb
      rcases trimNormal_head rest with he | hh
      · rw [he] at hb; simp at hb
      · rw [hh] at hb
        cases rest with
        | nil => simp at hb
        | cons c r =>
          rw [List.head?_cons, Option.some_inj] at hb
          have h' : (p a c && chainOk p (c :: r)) = true := h
          rw [← hb]
          exact ((Bool.and_eq_true _ _).mp h').1

theorem trimNormal_last : ∀ {l : List Nat} {x : Nat},
    (trimNormal l).getLast? = some x → (x == 45 || x == 32) = false
  | [], x, h => by simp [trimNormal] at h
  | a :: rest, x, h => by
    rw [trimNormal] at h
    by_cases hemp : (trimNormal rest).isEmpty = true
    · by_cases hx : (a == 45 || a == 32) = true
      · rw [if_pos (by simp [hemp, hx])] at h
        simp at h
      · rw [if_neg (by rw [hemp]; simpa using hx)] at h
        rw [List.isEmpty_iff] at hemp
        rw [hemp] at h
        simp only [List.getLast?_singleton, Option.some_inj] at h
        subst h
        simpa using hx
    · rw [if_neg (fun hc => hemp ((Bool.and_eq_true _ _).mp hc).1)] at h
      have hne : trimNormal rest ≠ [] := by
        intro he; apply hemp; rw [he]; rfl
      rw [getLast?_cons_ne hne] at h
      exact trimNormal_last h

theorem trimNormal_cons_keep {a : Nat} {l : List Nat}
    (h : (a == 45 || a == 32) = false) :
    trimNormal (a :: l) = a :: trimNormal l := by
  rw [trimNormal, if_neg]
  rw [h, Bool.and_false]
  simp

theorem strictInv_init : StrictInv initS :=
  ⟨rfl, rfl, by simp [initS], rfl⟩

theorem strictInv_push_alnum {st : SState} {x : Nat} (h : StrictInv st)
    (hx : isStrictByte x = true) (hxne : x ≠ 45) :
    StrictInv ⟨st.slug ++ [x], false⟩ := by
  obtain ⟨hall, hchain, hhead, hprev⟩ := h
  refine ⟨?_, ?_, ?_, ?_⟩
  · simp only [List.all_append, Bool.and_eq_true]
    exact ⟨hall, by simp [hx]⟩
  · refine chainOk_concat hchain ?_
    intro a _
    simp only [dashOk, Bool.not_eq_true', Bool.and_eq_false_iff]
    right
    simpa using hxne
  · rcases heq : st.slug with _ | ⟨a, r⟩
    · simpa using hxne
    · rw [heq] at hhead
      rw [head?_append_ne (List.cons_ne_nil a r)]
      exact hhead
  · rw [getLast?_concat']
    simp [hxne]

theorem strictInv_push_dash {st : SState} (h : StrictInv st)
    (hp : st.prev_is_dash = false) :
    StrictInv ⟨st.slug ++ [45], true⟩ := by
  obtain ⟨hall, hchain, hhead, hprev⟩ := h
  rw [hp] at hprev
  have hne : st.slug ≠ [] := by
    intro he
    rw [he] at hprev
    simp at hprev
  have hlast : (st.slug.getLast? == some 45) = false := by
    cases hv : (st.slug.getLast? == some 45)
    · rfl
    · rw [hv, Bool.or_true] at hprev
      exact absurd hprev.symm (by simp)
  refine ⟨?_, ?_, ?_, ?_⟩
  · simp only [List.all_append, Bool.and_eq_true]
    exact ⟨hall, by simp [isStrictByte]⟩
  · refine chainOk_concat hchain ?_
    intro a ha
    simp only [dashOk, Bool.not_eq_true', Bool.and_eq_false_iff]
    left
    have : a ≠ 45 := by
      intro hc
      rw [ha, hc] at hlast
      simp at hlast
    simpa using this
  · rw [head?_append_ne hne]
    exact hhead
  · rw [getLast?_concat']
    simp

theorem pushCharS_inv {st : SState} (x : Nat) (h : StrictInv st) :
    StrictInv (pushCharS st x) := by
  unfold pushCharS
  by_cases h1 : (97 ≤ x ∧ x ≤ 122) ∨ (48 ≤ x ∧ x ≤ 57)
  · rw [if_pos h1]
    exact strictInv_push_alnum h
      (by simp only [isStrictByte, isLowerDigit, Bool.or_eq_true, Bool.and_eq_true,
            decide_eq_true_eq]; omega)
      (by omega)
  · rw [if_neg h1]
    by_cases h2 : 65 ≤ x ∧ x ≤ 90
    · rw [if_pos h2]
      exact strictInv_push_alnum h
        (by simp only [isStrictByte, isLowerDigit, Bool.or_eq_true, Bool.and_eq_true,
              decide_eq_true_eq]; omega)
        (by omega)
    · rw [if_neg h2]
      by_cases h3 : st.prev_is_dash = true
      · rw [if_pos h3]
        exact h
      · rw [if_neg h3]
        exact strictInv_push_dash h (Bool.not_eq_true _ ▸ h3)

theorem pushBytesS_inv {st : SState} (l : List Nat) (h : StrictInv st) :
    StrictInv (pushBytesS st l) :=
  foldl_inv (fun _ x h => pushCharS_inv x h) l st h

theorem processCharS_inv {t : Translit} {st : SState} (c : Char) (h : StrictInv st) :
    StrictInv (processCharS t st c) := by
  unfold processCharS
  split
  · exact pushCharS_inv _ h
  · exact pushBytesS_inv _ h

theorem strictShape_trim {st : SState} (h : StrictInv st) :
    strictShape (trimStrict st.slug) = true := by
  obtain ⟨hall, hchain, hhead, _⟩ := h
  unfold trimStrict strictShape
  by_cases hl : st.slug.getLast? = some 45
  · rw [if_pos hl]
    have hne2 : st.slug.dropLast.getLast? ≠ some 45 := by
      intro hc
      have := chainOk_last_pair hchain hc hl
      simp [dashOk] at this
    refine by
      simp only [Bool.and_eq_true, Bool.not_eq_true', beq_eq_false_iff_ne, ne_eq]
      refine ⟨⟨⟨all_dropLast hall, chainOk_dropLast hchain⟩, ?_⟩, hne2⟩
      rcases head?_dropLast st.slug with he | hh
      · rw [he]; simp
      · rw [hh]; exact hhead
  · rw [if_neg hl]
    simp only [Bool.and_eq_true, Bool.not_eq_true', beq_eq_false_iff_ne, ne_eq]
    exact ⟨⟨⟨hall, hchain⟩, hhead⟩, hl⟩

theorem strictShape_slugifyBytes (t : Translit) (cs : List Char) :
    strictShape (slugifyBytes t cs) = true :=
  strictShape_trim (foldl_inv (fun _ c h => processCharS_inv c h) cs initS strictInv_init)

theorem char_toNat_ofNat {n : Nat} (h : n < 128) : (Char.ofNat n).toNat = n := by
  have hv : Nat.isValidChar n := Or.inl (by omega)
  simp [Char.ofNat, hv, Char.toNat, Char.ofNatAux, UInt32.ofNat']
  rfl

theorem isStrictByte_lt {x : Nat} (h : isStrictByte x = true) : x < 128 := by
  simp only [isStrictByte, isLowerDigit, Bool.or_eq_true, Bool.and_eq_true,
    decide_eq_true_eq, beq_iff_eq] at h
  omega

theorem strictShape_all_lt {l : List Nat} (h : strictShape l = true) :
    ∀ x ∈ l, x < 128 := by
  intro x hx
  unfold strictShape at h
  simp only [Bool.and_eq_true] at h
  exact isStrictByte_lt (List.all_eq_true.mp h.1.1.1 x hx)

theorem data_bytesToString {l : List Nat} (h : ∀ x ∈ l, x < 128) :
    (bytesToString l).data.map Char.toNat = l := by
  unfold bytesToString
  show (l.map Char.ofNat).map Char.toNat = l
  rw [List.map_map]
  have : ∀ x ∈ l, (Char.toNat ∘ Char.ofNat) x = x := fun x hx => char_toNat_ofNat (h x hx)
  rw [List.map_congr_left this]
  exact List.map_id l

/-- C1: for every transliteration table and every input string, the
strict slug either is empty or matches `^[a-z0-9]+(-[a-z0-9]+)*$`:
only lowercase ASCII letters, digits and hyphens occur, no two hyphens
are adjacent, and the output neither starts nor ends with a hyphen. -/
theorem slugify_strict_shape (t : Translit) (s : String) :
    strictShapeStr (slugify t s) = true := by
  unfold strictShapeStr slugify
  rw [data_bytesToString (strictShape_all_lt (strictShape_slugifyBytes t s.data))]
  exact strictShape_slugifyBytes t s.data

theorem lInv_init (leave : Bool) : LInv leave initN := by
  refine ⟨rfl, rfl, ⟨?_, ?_, ?_⟩, rfl, rfl, rfl⟩ <;> simp [initN]

theorem isEmpty_concat (l : List Nat) (y : Nat) : (l ++ [y]).isEmpty = false := by
  cases l <;> rfl

theorem beq_some_false {y z : Nat} (h : y ≠ z) :
    ((some y : Option Nat) == some z) = false := by
  rw [beq_eq_false_iff_ne]
  simp only [ne_eq, Option.some_inj]
  exact h

theorem lInv_push_plain {leave : Bool} {st : NState} {y : Nat} (h : LInv leave st)
    (hy : lenientByte leave y = true) (h45 : y ≠ 45) (h32 : y ≠ 32)
    (h95 : y ≠ 95) (h46 : y ≠ 46) :
    LInv leave ⟨st.slug ++ [y], false, false, false⟩ := by
  obtain ⟨hall, hchain, hhead, _, _, _⟩ := h
  refine ⟨?_, ?_, ?_, ?_, ?_, ?_⟩
  · simp only [List.all_append, Bool.and_eq_true]
    exact ⟨hall, by simp [hy]⟩
  · refine chainOk_concat hchain ?_
    intro a _
    simp only [pairOkN, isWsByte, Bool.not_eq_true']
    simp only [Bool.or_eq_false_iff, Bool.and_eq_false_iff, beq_eq_false_iff_ne, ne_eq]
    omega
  · rcases heq : st.slug with _ | ⟨a, r⟩
    · refine ⟨?_, ?_, ?_⟩ <;> simp only [List.nil_append, List.head?_cons, ne_eq,
        Option.some_inj] <;> omega
    · rw [heq] at hhead
      rw [head?_append_ne (List.cons_ne_nil a r)]
      exact hhead
  · show false = _
    rw [getLast?_concat', isEmpty_concat, Bool.false_or, beq_some_false h45]
  · show false = _
    rw [getLast?_concat', isEmpty_concat, Bool.false_or]
    simp only [wsLast]
    rw [beq_some_false h32, beq_some_false h95]
    rfl
  · show false = _
    rw [getLast?_concat', beq_some_false h46]

theorem lInv_push_ws {leave : Bool} {st : NState} {y : Nat} (h : LInv leave st)
    (hy : y = 32 ∨ y = 95) (hsp : st.empty_space_was = false) :
    LInv leave ⟨st.slug ++ [y], false, true, false⟩ := by
  obtain ⟨hall, hchain, hhead, _, hspace, _⟩ := h
  rw [hsp] at hspace
  have hne : st.slug ≠ [] := by
    intro he
    rw [he] at hspace
    simp at hspace
  have hwslast : wsLast st.slug.getLast? = false := by
    cases hv : wsLast st.slug.getLast?
    · rfl
    · rw [hv, Bool.or_true] at hspace
      exact absurd hspace.symm (by simp)
  refine ⟨?_, ?_, ?_, ?_, ?_, ?_⟩
  · simp only [List.all_append, Bool.and_eq_true]
    refine ⟨hall, ?_⟩
    simp only [List.all_cons, List.all_nil, Bool.and_true, lenientByte, isLowerDigit,
      Bool.or_eq_true, Bool.and_eq_true, decide_eq_true_eq, beq_iff_eq]
    omega
  · refine chainOk_concat hchain ?_
    intro a ha
    rw [ha] at hwslast
    simp only [wsLast, Bool.or_eq_false_iff, beq_eq_false_iff_ne, ne_eq,
      Option.some_inj] at hwslast
    simp only [pairOkN, isWsByte, Bool.not_eq_true']
    simp only [Bool.or_eq_false_iff, Bool.and_eq_false_iff, beq_eq_false_iff_ne, ne_eq]
    omega
  · rw [head?_append_ne hne]
    exact hhead
  · show false = _
    rw [getLast?_concat', isEmpty_concat, Bool.false_or,
      beq_some_false (by omega : y ≠ 45)]
  · show true = _
    rw [getLast?_concat', isEmpty_concat, Bool.false_or]
    simp only [wsLast]
    rcases hy with rfl | rfl <;> rfl
  · show false = _
    rw [getLast?_concat', beq_some_false (by omega : y ≠ 46)]

theorem lInv_push_dot {leave : Bool} {st : NState} (h : LInv leave st)
    (hdot : st.dot_was_before = false) :
    LInv leave ⟨st.slug ++ [46], false, false, true⟩ := by
  obtain ⟨hall, hchain, hhead, _, _, hdotinv⟩ := h
  rw [hdot] at hdotinv
  have hlast46 : (st.slug.getLast? == some 46) = false := hdotinv.symm
  refine ⟨?_, ?_, ?_, ?_, ?_, ?_⟩
  · simp only [List.all_append, Bool.and_eq_true]
    exact ⟨hall, by simp [lenientByte]⟩
  · refine chainOk_concat hchain ?_
    intro a ha
    rw [ha] at hlast46
    simp only [beq_eq_false_iff_ne, ne_eq, Option.some_inj] at hlast46
    simp only [pairOkN, isWsByte, Bool.not_eq_true']
    simp only [Bool.or_eq_false_iff, Bool.and_eq_false_iff, beq_eq_false_iff_ne, ne_eq]
    omega
  · rcases heq : st.slug with _ | ⟨a, r⟩
    · refine ⟨?_, ?_, ?_⟩ <;> simp only [List.nil_append, List.head?_cons, ne_eq,
        Option.some_inj] <;> omega
    · rw [heq] at hhead
      rw [head?_append_ne (List.cons_ne_nil a r)]
      exact hhead
  · show false = _
    rw [getLast?_concat', isEmpty_concat, Bool.false_or,
      beq_some_false (by omega : (46 : Nat) ≠ 45)]
  · show false = _
    rw [getLast?_concat', isEmpty_concat, Bool.false_or]
    simp only [wsLast]
    rw [beq_some_false (by omega : (46 : Nat) ≠ 32),
      beq_some_false (by omega : (46 : Nat) ≠ 95)]
    rfl
  · show true = _
    rw [getLast?_concat']
    rfl

theorem lInv_push_dash {leave : Bool} {st : NState} (h : LInv leave st)
    (hp : st.prev_is_dash = false) :
    LInv leave ⟨st.slug ++ [45], true, false, false⟩ := by
  obtain ⟨hall, hchain, hhead, hprev, _, _⟩ := h
  rw [hp] at hprev
  have hne : st.slug ≠ [] := by
    intro he
    rw [he] at hprev
    simp at hprev
  have hlast45 : (st.slug.getLast? == some 45) = false := by
    cases hv : (st.slug.getLast? == some 45)
    · rfl
    · rw [hv, Bool.or_true] at hprev
      exact absurd hprev.symm (by simp)
  refine ⟨?_, ?_, ?_, ?_, ?_, ?_⟩
  · simp only [List.all_append, Bool.and_eq_true]
    exact ⟨hall, by simp [lenientByte]⟩
  · refine chainOk_concat hchain ?_
    intro a ha
    rw [ha] at hlast45
    simp only [beq_eq_false_iff_ne, ne_eq, Option.some_inj] at hlast45
    simp only [pairOkN, isWsByte, Bool.not_eq_true']
    simp only [Bool.or_eq_false_iff, Bool.and_eq_false_iff, beq_eq_false_iff_ne, ne_eq]
    omega
  · rw [head?_append_ne hne]
    exact hhead
  · show true = _
    rw [getLast?_concat', isEmpty_concat, Bool.false_or]
    rfl
  · show false = _
    rw [getLast?_concat', isEmpty_concat, Bool.false_or]
    simp only [wsLast]
    rw [beq_some_false (by omega : (45 : Nat) ≠ 32),
      beq_some_false (by omega : (45 : Nat) ≠ 95)]
    rfl
  · show false = _
    rw [getLast?_concat', beq_some_false (by omega : (45 : Nat) ≠ 46)]

theorem pushCharN_inv {leave : Bool} {st : NState} (x : Nat) (h : LInv leave st) :
    LInv leave (pushCharN leave st x) := by
  unfold pushCharN
  by_cases h1 : (97 ≤ x ∧ x ≤ 122) ∨ (48 ≤ x ∧ x ≤ 57)
  · rw [if_pos h1]
    refine lInv_push_plain h ?_ (by omega) (by omega) (by omega) (by omega)
    simp only [lenientByte, isLowerDigit, Bool.or_eq_true, Bool.and_eq_true,
      decide_eq_true_eq, beq_iff_eq]
    omega
  · rw [if_neg h1]
    by_cases h2 : 65 ≤ x ∧ x ≤ 90
    · rw [if_pos h2]
      cases hl : leave with
      | false =>
        rw [hl] at h
        rw [if_neg (by simp)]
        refine lInv_push_plain h ?_ (by omega) (by omega) (by omega) (by omega)
        simp only [lenientByte, isLowerDigit, Bool.or_eq_true, Bool.and_eq_true,
          decide_eq_true_eq, beq_iff_eq]
        omega
      | true =>
        rw [hl] at h
        rw [if_pos rfl]
        refine lInv_push_plain h ?_ (by omega) (by omega) (by omega) (by omega)
        simp only [lenientByte, isLowerDigit, Bool.or_eq_true, Bool.true_and,
          Bool.and_eq_true, decide_eq_true_eq, beq_iff_eq]
        omega
    · rw [if_neg h2]
      by_cases h3 : x = 32 ∨ x = 95
      · rw [if_pos h3]
        by_cases h4 : st.empty_space_was = true
        · rw [if_pos h4]
          exact h
        · rw [if_neg h4]
          exact lInv_push_ws h h3 (Bool.not_eq_true _ ▸ h4)
      · rw [if_neg h3]
        by_cases h5 : x = 46
        · rw [if_pos h5]
          by_cases h6 : st.dot_was_before = true
          · rw [if_pos h6]
            exact h
          · rw [if_neg h6]
            exact lInv_push_dot h (Bool.not_eq_true _ ▸ h6)
        · rw [if_neg h5]
          by_cases h7 : st.prev_is_dash = true
          · rw [if_pos h7]
            exact h
          · rw [if_neg h7]
            exact lInv_push_dash h (Bool.not_eq_true _ ▸ h7)

theorem pushBytesN_inv {leave : Bool} {st : NState} (l : List Nat) (h : LInv leave st) :
    LInv leave (pushBytesN leave st l) :=
  foldl_inv (fun _ x h => pushCharN_inv x h) l st h

theorem processCharN_inv {t : Translit} {leave : Bool} {st : NState} (c : Char)
    (h : LInv leave st) : LInv leave (processCharN t leave st c) := by
  unfold processCharN
  split
  · exact pushCharN_inv _ h
  · exact pushBytesN_inv _ h

theorem lenientShape_trim {leave : Bool} {st : NState} (h : LInv leave st) :
    lenientShape leave (trimNormal st.slug) = true := by
  obtain ⟨hall, hchain, hhead, _, _, _⟩ := h
  unfold lenientShape
  simp only [Bool.and_eq_true, Bool.not_eq_true', beq_eq_false_iff_ne, ne_eq]
  refine ⟨⟨⟨⟨⟨trimNormal_all hall, trimNormal_chainOk hchain⟩, ?_⟩, ?_⟩, ?_⟩, ?_⟩
  · rcases trimNormal_head st.slug with he | hh
    · rw [he]; simp
    · rw [hh]; exact hhead.1
  · rcases trimNormal_head st.slug with he | hh
    · rw [he]; simp
    · rw [hh]; exact hhead.2.1
  · intro hc
    have := trimNormal_last hc
    simp at this
  · intro hc
    have := trimNormal_last hc
    simp at this

theorem lenientShape_slugifyNormalBytes (t : Translit) (leave : Bool) (cs : List Char) :
    lenientShape leave (slugifyNormalBytes t leave cs) = true :=
  lenientShape_trim
    (foldl_inv (fun _ c h => processCharN_inv c h) cs initN (lInv_init leave))

theorem lenientByte_lt {leave : Bool} {x : Nat} (h : lenientByte leave x = true) :
    x < 128 := by
  simp only [lenientByte, isLowerDigit, Bool.or_eq_true, Bool.and_eq_true,
    decide_eq_true_eq, beq_iff_eq] at h
  rcases h with ((h | h) | h) | h | h | h | h <;> omega

theorem lenientShape_all_lt {leave : Bool} {l : List Nat}
    (h : lenientShape leave l = true) : ∀ x ∈ l, x < 128 := by
  intro x hx
  unfold lenientShape at h
  simp only [Bool.and_eq_true] at h
  exact lenientByte_lt (List.all_eq_true.mp h.1.1.1.1.1 x hx)

/-- C2: for every transliteration table, input string and value of the
case-preservation flag, the lenient slug draws its characters from
lowercase letters, uppercase letters (only when case is preserved),
digits, hyphen, space, dot and underscore; it has no two adjacent
hyphens, no two adjacent whitespace-class bytes (space/underscore), no
two adjacent dots; and it neither starts nor ends with a hyphen or a
space. -/
theorem slugify_normal_lenient_shape (t : Translit) (s : String) (leave : Bool) :
    lenientShapeStr leave (slugify_normal t s leave) = true := by
  unfold lenientShapeStr slugify_normal
  rw [data_bytesToString
    (lenientShape_all_lt (lenientShape_slugifyNormalBytes t leave s.data))]
  exact lenientShape_slugifyNormalBytes t leave s.data

theorem foldS_congr (t t' : Translit) :
    ∀ (cs : List Char) (st : SState), (∀ c ∈ cs, c.toNat < 128) →
      cs.foldl (processCharS t) st = cs.foldl (processCharS t') st
  | [], _, _ => rfl
  | c :: rest, st, h => by
    have hc : c.toNat < 128 := h c (List.mem_cons_self c rest)
    show rest.foldl (processCharS t) (processCharS t st c) = _
    rw [show processCharS t st c = processCharS t' st c by
      unfold processCharS; rw [if_pos hc, if_pos hc]]
    exact foldS_congr t t' rest _ (fun c' hc' => h c' (List.mem_cons_of_mem c hc'))

theorem foldN_congr (t t' : Translit) (leave : Bool) :
    ∀ (cs : List Char) (st : NState), (∀ c ∈ cs, c.toNat < 128) →
      cs.foldl (processCharN t leave) st = cs.foldl (processCharN t' leave) st
  | [], _, _ => rfl
  | c :: rest, st, h => by
    have hc : c.toNat < 128 := h c (List.mem_cons_self c rest)
    show rest.foldl (processCharN t leave) (processCharN t leave st c) = _
    rw [show processCharN t leave st c = processCharN t' leave st c by
      unfold processCharN; rw [if_pos hc, if_pos hc]]
    exact foldN_congr t t' leave rest _ (fun c' hc' => h c' (List.mem_cons_of_mem c hc'))

theorem slugify_ascii_congr (t t' : Translit) (s : String)
    (h : ∀ c ∈ s.data, c.toNat < 128) : slugify t s = slugify t' s := by
  unfold slugify slugifyBytes
  rw [foldS_congr t t' s.data initS h]

theorem slugify_normal_ascii_congr (t t' : Translit) (s : String) (leave : Bool)
    (h : ∀ c ∈ s.data, c.toNat < 128) :
    slugify_normal t s leave = slugify_normal t' s leave := by
  unfold slugify_normal slugifyNormalBytes
  rw [foldN_congr t t' leave s.data initN h]

/-- C7: the three strict-mode end-to-end examples of the specification,
for any transliteration table (the inputs are pure ASCII, so the table
is never consulted). -/
theorem slugify_examples (t : Translit) :
    slugify t "My Test String!!!1!1" = "my-test-string-1-1" ∧
    slugify t "  --test_-_cool" = "test-cool" ∧
    slugify t "You & Me" = "you-me" := by
  refine ⟨?_, ?_, ?_⟩ <;>
    rw [slugify_ascii_congr t (fun _ => none) _ (by decide)] <;> rfl

/-- C8: the four lenient-mode end-to-end examples of the specification,
for any transliteration table (the inputs are pure ASCII, so the table
is never consulted). -/
theorem slugify_normal_examples (t : Translit) :
    slugify_normal t "My Test String!!!1!1" false = "my test string-1-1" ∧
    slugify_normal t "You & Me" false = "you - me" ∧
    slugify_normal t "RWR - - - - - - -" true = "RWR" ∧
    slugify_normal t "roman.  txt" true = "roman. txt" := by
  refine ⟨?_, ?_, ?_, ?_⟩ <;>
    rw [slugify_normal_ascii_congr t (fun _ => none) _ _ (by decide)] <;> rfl

theorem pushCharS_sep {x : Nat} (h : isAlnumByte x = false) :
    pushCharS initS x = initS := by
  simp only [isAlnumByte, isLowerDigit, Bool.or_eq_false_iff, Bool.and_eq_false_iff,
    decide_eq_false_iff_not] at h
  unfold pushCharS
  rw [if_neg (by omega), if_neg (by omega)]
  rfl

theorem pushCharN_sep {leave : Bool} {x : Nat} (h : isAlnumByte x = false)
    (h46 : x ≠ 46) : pushCharN leave initN x = initN := by
  simp only [isAlnumByte, isLowerDigit, Bool.or_eq_false_iff, Bool.and_eq_false_iff,
    decide_eq_false_iff_not] at h
  unfold pushCharN
  rw [if_neg (by omega), if_neg (by omega)]
  by_cases h3 : x = 32 ∨ x = 95
  · rw [if_pos h3]
    rfl
  · rw [if_neg h3, if_neg h46]
    rfl

theorem foldS_sep (t : Translit) :
    ∀ (cs : List Char),
      (∀ c ∈ cs,
        (c.toNat < 128 ∧ isAlnumByte c.toNat = false ∧ c.toNat ≠ 46) ∨
        (128 ≤ c.toNat ∧ t c = none)) →
      cs.foldl (processCharS t) initS = initS
  | [], _ => rfl
  | c :: rest, h => by
    show rest.foldl (processCharS t) (processCharS t initS c) = initS
    have hstep : processCharS t initS c = initS := by
      rcases h c (List.mem_cons_self c rest) with ⟨hlt, halnum, _⟩ | ⟨hge, hnone⟩
      · unfold processCharS
        rw [if_pos hlt]
        exact pushCharS_sep halnum
      · unfold processCharS
        rw [if_neg (by omega), hnone]
        show pushBytesS initS [45] = initS
        show pushCharS initS 45 = initS
        exact pushCharS_sep (by decide)
    rw [hstep]
    exact foldS_sep t rest (fun c' hc' => h c' (List.mem_cons_of_mem c hc'))

theorem foldN_sep (t : Translit) (leave : Bool) :
    ∀ (cs : List Char),
      (∀ c ∈ cs,
        (c.toNat < 128 ∧ isAlnumByte c.toNat = false ∧ c.toNat ≠ 46) ∨
        (128 ≤ c.toNat ∧ t c = none)) →
      cs.foldl (processCharN t leave) initN = initN
  | [], _ => rfl
  | c :: rest, h => by
    show rest.foldl (processCharN t leave) (processCharN t leave initN c) = initN
    have hstep : processCharN t leave initN c = initN := by
      rcases h c (List.mem_cons_self c rest) with ⟨hlt, halnum, h46⟩ | ⟨hge, hnone⟩
      · unfold processCharN
        rw [if_pos hlt]
        exact pushCharN_sep halnum h46
      · unfold processCharN
        rw [if_neg (by omega), hnone]
        show pushBytesN leave initN [45] = initN
        show pushCharN leave initN 45 = initN
        exact pushCharN_sep (by decide) (by decide)
    rw [hstep]
    exact foldN_sep t leave rest (fun c' hc' => h c' (List.mem_cons_of_mem c hc'))

/-- C6: both slug functions are total Lean functions; the empty input
yields the empty output in both modes; and an input made up entirely of
unmappable characters (`transliterate` returns no mapping) or
separator-class ASCII characters (not a letter, digit or dot) yields
the empty output in both modes. -/
theorem slugify_total_empty (t : Translit) (s : String) (leave : Bool)
    (h : ∀ c ∈ s.data,
      (c.toNat < 128 ∧ isAlnumByte c.toNat = false ∧ c.toNat ≠ 46) ∨
      (128 ≤ c.toNat ∧ t c = none)) :
    slugify t "" = "" ∧ slugify_normal t "" leave = "" ∧
    slugify t s = "" ∧ slugify_normal t s leave = "" := by
  refine ⟨rfl, rfl, ?_, ?_⟩
  · unfold slugify slugifyBytes
    rw [foldS_sep t s.data h]
    rfl
  · unfold slugify_normal slugifyNormalBytes
    rw [foldN_sep t leave s.data h]
    rfl

/-- Witness for C6: a concrete all-separator input is sent to the empty
string by both modes. -/
theorem slugify_total_empty_witness :
    slugify (fun _ => none) "!?- " = "" ∧
    slugify_normal (fun _ => none) "!?- " false = "" := by
  constructor
  · exact (slugify_total_empty (fun _ => none) "!?- " false (by decide)).2.2.1
  · exact (slugify_total_empty (fun _ => none) "!?- " false (by decide)).2.2.2

/-- C3 counterexample: the encoder distinguishes a transliteration that
returns an explicit empty byte sequence from one that returns no
mapping; on the input "aéb" the two tables give different outputs, so
the two policies are observably different. -/
theorem translit_empty_vs_none_counterexample :
    slugify (fun _ => some []) "aéb" = "ab" ∧
    slugify (fun _ => none) "aéb" = "a-b" ∧
    slugify_normal (fun _ => some []) "aéb" true = "ab" ∧
    slugify_normal (fun _ => none) "aéb" true = "a-b" ∧
    slugify (fun _ => some []) "aéb" ≠ slugify (fun _ => none) "aéb" := by
  refine ⟨rfl, rfl, rfl, rfl, ?_⟩
  decide

/-- C3 (amended): for a non-ASCII code point, a transliteration result
that is an explicit empty byte sequence contributes nothing and leaves
the scan state unchanged, whereas an absent mapping falls back to the
one-byte string "-", whose byte runs through the catch-all rule (and
can therefore emit a hyphen); the two cases are not treated
identically. -/
theorem translit_empty_vs_none_amended (t : Translit) (c : Char) (stS : SState)
    (stN : NState) (leave : Bool) (hc : 128 ≤ c.toNat) :
    (t c = some [] → processCharS t stS c = stS ∧
      processCharN t leave stN c = stN) ∧
    (t c = none → processCharS t stS c = pushCharS stS 45 ∧
      processCharN t leave stN c = pushCharN leave stN 45) := by
  constructor
  · intro he
    constructor
    · unfold processCharS
      rw [if_neg (by omega), he]
      rfl
    · unfold processCharN
      rw [if_neg (by omega), he]
      rfl
  · intro hn
    constructor
    · unfold processCharS
      rw [if_neg (by omega), hn]
      rfl
    · unfold processCharN
      rw [if_neg (by omega), hn]
      rfl

/-- Witness for the amended C3, at the concrete code point 'é'. -/
theorem translit_empty_vs_none_amended_witness :
    processCharS (fun _ => some []) initS 'é' = initS ∧
    processCharS (fun _ => none) initS 'é' = pushCharS initS 45 :=
  ⟨((translit_empty_vs_none_amended (fun _ => some []) 'é' initS initN true
      (by decide)).1 rfl).1,
   ((translit_empty_vs_none_amended (fun _ => none) 'é' initS initN true
      (by decide)).2 rfl).1⟩

theorem pushCharS_lowerByte (st : SState) (x : Nat) :
    pushCharS st (lowerByte x) = pushCharS st x := by
  unfold lowerByte
  by_cases h : 65 ≤ x ∧ x ≤ 90
  · rw [if_pos h]
    unfold pushCharS
    have hL : (97 ≤ x - 65 + 97 ∧ x - 65 + 97 ≤ 122) ∨
        (48 ≤ x - 65 + 97 ∧ x - 65 + 97 ≤ 57) := Or.inl ⟨by omega, by omega⟩
    have hR : ¬((97 ≤ x ∧ x ≤ 122) ∨ (48 ≤ x ∧ x ≤ 57)) := by omega
    rw [if_pos hL, if_neg hR, if_pos h]
  · rw [if_neg h]

theorem processCharS_caseFold (t : Translit) (st : SState) {c d : Char}
    (h : lowerByte c.toNat = lowerByte d.toNat) :
    processCharS t st c = processCharS t st d := by
  by_cases hc : c.toNat < 128
  · have hd : d.toNat < 128 := by
      unfold lowerByte at h
      split_ifs at h <;> omega
    unfold processCharS
    rw [if_pos hc, if_pos hd]
    calc pushCharS st c.toNat
        = pushCharS st (lowerByte c.toNat) := (pushCharS_lowerByte st c.toNat).symm
      _ = pushCharS st (lowerByte d.toNat) := by rw [h]
      _ = pushCharS st d.toNat := pushCharS_lowerByte st d.toNat
  · have hnat : c.toNat = d.toNat := by
      unfold lowerByte at h
      split_ifs at h <;> omega
    have hcd : c = d := by
      have h1 : Char.ofNat c.toNat = c := Char.ofNat_toNat c
      have h2 : Char.ofNat d.toNat = d := Char.ofNat_toNat d
      rw [← h1, ← h2, hnat]
    rw [hcd]

theorem foldS_caseVariants (t : Translit) :
    ∀ (as bs : List Char) (st : SState), caseVariants as bs = true →
      as.foldl (processCharS t) st = bs.foldl (processCharS t) st
  | [], [], _, _ => rfl
  | [], _ :: _, _, h => Bool.noConfusion h
  | _ :: _, [], _, h => Bool.noConfusion h
  | a :: as, b :: bs, st, h => by
    have h' : ((lowerByte a.toNat == lowerByte b.toNat) && caseVariants as bs) = true := h
    obtain ⟨h1, h2⟩ := (Bool.and_eq_true _ _).mp h'
    show as.foldl (processCharS t) (processCharS t st a)
        = bs.foldl (processCharS t) (processCharS t st b)
    rw [processCharS_caseFold t st (by simpa using h1)]
    exact foldS_caseVariants t as bs _ h2

/-- C5: strict mode is case-insensitive — changing the case of any
ASCII letters anywhere in the input (the two inputs are case variants)
does not change the strict slug. -/
theorem slugify_case_insensitive (t : Translit) (s s' : String)
    (h : caseVariants s.data s'.data = true) : slugify t s = slugify t s' := by
  unfold slugify slugifyBytes
  rw [foldS_caseVariants t s.data s'.data initS h]

/-- Witness for C5 at a concrete case-variant pair. -/
theorem slugify_case_insensitive_witness :
    caseVariants "Ab-C".data "aB-c".data = true ∧
    slugify (fun _ => none) "Ab-C" = slugify (fun _ => none) "aB-c" :=
  ⟨by decide, slugify_case_insensitive (fun _ => none) "Ab-C" "aB-c" (by decide)⟩

theorem prevOut_cons_ne {x : Nat} (prev : Bool) (rest : List Nat) (hx : x ≠ 45) :
    prevOut false rest = prevOut prev (x :: rest) := by
  cases rest with
  | nil =>
    show false = _
    unfold prevOut
    rw [if_neg (by simp)]
    simp [hx]
  | cons b r =>
    unfold prevOut
    rw [if_neg (by simp), if_neg (by simp), List.getLast?_cons_cons]

theorem prevOut_cons_45 (prev : Bool) (rest : List Nat) :
    prevOut true rest = prevOut prev (45 :: rest) := by
  cases rest with
  | nil =>
    show true = _
    unfold prevOut
    rw [if_neg (by simp)]
    simp
  | cons b r =>
    unfold prevOut
    rw [if_neg (by simp), if_neg (by simp), List.getLast?_cons_cons]

theorem pushBytesS_replay :
    ∀ (L acc : List Nat) (prev : Bool),
      L.all isStrictByte = true → noDoubleDash L = true →
      (prev = true → L.head? ≠ some 45) →
      pushBytesS ⟨acc, prev⟩ L = ⟨acc ++ L, prevOut prev L⟩
  | [], acc, prev, _, _, _ => by
    show (⟨acc, prev⟩ : SState) = _
    rw [List.append_nil]
    rfl
  | x :: rest, acc, prev, hall, hchain, hhead => by
    rw [List.all_cons, Bool.and_eq_true] at hall
    by_cases hx : (97 ≤ x ∧ x ≤ 122) ∨ (48 ≤ x ∧ x ≤ 57)
    · have hx45 : x ≠ 45 := by omega
      have hchain' : noDoubleDash rest = true := by
        cases rest with
        | nil => rfl
        | cons b r =>
          have h' : (dashOk x b && chainOk dashOk (b :: r)) = true := hchain
          exact ((Bool.and_eq_true _ _).mp h').2
      show pushBytesS (pushCharS ⟨acc, prev⟩ x) rest = _
      rw [show pushCharS ⟨acc, prev⟩ x = ⟨acc ++ [x], false⟩ by
        unfold pushCharS; rw [if_pos hx]]
      rw [pushBytesS_replay rest (acc ++ [x]) false hall.2 hchain' (by simp)]
      rw [List.append_assoc, List.singleton_append, prevOut_cons_ne prev rest hx45]
    · have hx45 : x = 45 := by
        have := hall.1
        simp only [isStrictByte, isLowerDigit, Bool.or_eq_true, Bool.and_eq_true,
          decide_eq_true_eq, beq_iff_eq] at this
        omega
      subst hx45
      have hprev : prev = false := by
        cases hp : prev
        · rfl
        · exact absurd rfl (hhead hp)
      subst hprev
      have hchain' : noDoubleDash rest = true := by
        cases rest with
        | nil => rfl
        | cons b r =>
          have h' : (dashOk 45 b && chainOk dashOk (b :: r)) = true := hchain
          exact ((Bool.and_eq_true _ _).mp h').2
      have hheadrest : rest.head? ≠ some 45 := by
        cases rest with
        | nil => simp
        | cons b r =>
          have h' : (dashOk 45 b && chainOk dashOk (b :: r)) = true := hchain
          have hb := ((Bool.and_eq_true _ _).mp h').1
          have hbne : b ≠ 45 := by
            intro hc
            subst hc
            simp [dashOk] at hb
          simp only [List.head?_cons, ne_eq, Option.some_inj]
          exact hbne
      show pushBytesS (pushCharS ⟨acc, false⟩ 45) rest = _
      rw [show pushCharS ⟨acc, false⟩ 45 = ⟨acc ++ [45], true⟩ by
        unfold pushCharS
        rw [if_neg (by omega), if_neg (by omega), if_neg (by simp)]]
      rw [pushBytesS_replay rest (acc ++ [45]) true hall.2 hchain'
        (fun _ => hheadrest)]
      rw [List.append_assoc, List.singleton_append, prevOut_cons_45 false rest]

theorem strict_replay_full {L : List Nat} (h : strictShape L = true) :
    trimStrict (pushBytesS initS L).slug = L := by
  unfold strictShape at h
  simp only [Bool.and_eq_true, Bool.not_eq_true', beq_eq_false_iff_ne, ne_eq] at h
  obtain ⟨⟨⟨hall, hchain⟩, hhead⟩, hlast⟩ := h
  rw [show initS = (⟨[], true⟩ : SState) from rfl]
  rw [pushBytesS_replay L [] true hall hchain (fun _ => hhead)]
  show trimStrict ([] ++ L) = L
  rw [List.nil_append]
  unfold trimStrict
  rw [if_neg hlast]

theorem foldS_ofNat (t : Translit) :
    ∀ (L : List Nat) (st : SState), (∀ x ∈ L, x < 128) →
      (L.map Char.ofNat).foldl (processCharS t) st = pushBytesS st L
  | [], _, _ => rfl
  | x :: rest, st, h => by
    have hx : x < 128 := h x (List.mem_cons_self x rest)
    show (rest.map Char.ofNat).foldl (processCharS t) (processCharS t st (Char.ofNat x))
        = pushBytesS st (x :: rest)
    rw [show processCharS t st (Char.ofNat x) = pushCharS st x by
      unfold processCharS
      rw [char_toNat_ofNat hx, if_pos hx]]
    exact foldS_ofNat t rest _ (fun y hy => h y (List.mem_cons_of_mem x hy))

theorem slugify_fixed_of_shape (t : Translit) (s' : String)
    (h : strictShapeStr s' = true) : slugify t s' = s' := by
  unfold strictShapeStr at h
  have hmap : (s'.data.map Char.toNat).map Char.ofNat = s'.data := by
    rw [List.map_map]
    have hp : ∀ c ∈ s'.data, (Char.ofNat ∘ Char.toNat) c = c :=
      fun c _ => Char.ofNat_toNat c
    rw [List.map_congr_left hp]
    exact List.map_id _
  unfold slugify slugifyBytes
  rw [show s'.data = (s'.data.map Char.toNat).map Char.ofNat from hmap.symm]
  rw [foldS_ofNat t _ initS (strictShape_all_lt h)]
  rw [strict_replay_full h]
  unfold bytesToString
  rw [hmap]

/-- C4: strict-mode slugification is idempotent, and every string
already in the strict output shape is a fixed point of `slugify`. -/
theorem slugify_idempotent (t : Translit) (s s' : String)
    (h : strictShapeStr s' = true) :
    slugify t (slugify t s) = slugify t s ∧ slugify t s' = s' := by
  constructor
  · apply slugify_fixed_of_shape
    unfold strictShapeStr slugify
    rw [data_bytesToString (strictShape_all_lt (strictShape_slugifyBytes t s.data))]
    exact strictShape_slugifyBytes t s.data
  · exact slugify_fixed_of_shape t s' h

/-- Witness for C4 at concrete inputs. -/
theorem slugify_idempotent_witness :
    slugify (fun _ => none) (slugify (fun _ => none) "x!y") =
      slugify (fun _ => none) "x!y" ∧
    slugify (fun _ => none) "a-b" = "a-b" :=
  slugify_idempotent (fun _ => none) "x!y" "a-b" (by decide)

theorem processCharN_eq_pushBytes (t : Translit) (leave : Bool) (st : NState)
    (c : Char) : processCharN t leave st c = pushBytesN leave st (charBytes t c) := by
  unfold processCharN charBytes
  split
  · rfl
  · rfl

theorem foldN_flatten (t : Translit) (leave : Bool) :
    ∀ (cs : List Char) (st : NState),
      cs.foldl (processCharN t leave) st =
        pushBytesN leave st (cs.flatMap (charBytes t))
  | [], _ => rfl
  | c :: cs, st => by
    show cs.foldl (processCharN t leave) (processCharN t leave st c) = _
    rw [processCharN_eq_pushBytes, foldN_flatten t leave cs]
    unfold pushBytesN
    rw [← List.foldl_append, ← List.flatMap_cons]

theorem pushCharN_slug_mono (leave : Bool) (st : NState) (x : Nat) :
    ∃ m, (pushCharN leave st x).slug = st.slug ++ m := by
  unfold pushCharN
  by_cases h1 : (97 ≤ x ∧ x ≤ 122) ∨ (48 ≤ x ∧ x ≤ 57)
  · rw [if_pos h1]; exact ⟨[x], rfl⟩
  · rw [if_neg h1]
    by_cases h2 : 65 ≤ x ∧ x ≤ 90
    · rw [if_pos h2]; exact ⟨[if leave then x else x - 65 + 97], rfl⟩
    · rw [if_neg h2]
      by_cases h3 : x = 32 ∨ x = 95
      · rw [if_pos h3]
        by_cases h4 : st.empty_space_was = true
        · rw [if_pos h4]; exact ⟨[], (List.append_nil _).symm⟩
        · rw [if_neg h4]; exact ⟨[x], rfl⟩
      · rw [if_neg h3]
        by_cases h5 : x = 46
        · rw [if_pos h5]
          by_cases h6 : st.dot_was_before = true
          · rw [if_pos h6]; exact ⟨[], (List.append_nil _).symm⟩
          · rw [if_neg h6]; exact ⟨[46], rfl⟩
        · rw [if_neg h5]
          by_cases h7 : st.prev_is_dash = true
          · rw [if_pos h7]; exact ⟨[], (List.append_nil _).symm⟩
          · rw [if_neg h7]; exact ⟨[45], rfl⟩

theorem pushBytesN_slug_mono (leave : Bool) :
    ∀ (l : List Nat) (st : NState), ∃ m, (pushBytesN leave st l).slug = st.slug ++ m
  | [], _ => ⟨[], (List.append_nil _).symm⟩
  | x :: rest, st => by
    obtain ⟨m1, hm1⟩ := pushCharN_slug_mono leave st x
    obtain ⟨m2, hm2⟩ := pushBytesN_slug_mono leave rest (pushCharN leave st x)
    refine ⟨m1 ++ m2, ?_⟩
    show (pushBytesN leave (pushCharN leave st x) rest).slug = _
    rw [hm2, hm1, List.append_assoc]

/-- C9: the lenient scan suppresses a leading separator-class or
whitespace-class byte structurally (such a byte leaves the initial
state, whose separator and whitespace flags start `true`, unchanged),
but a leading dot is not suppressed: whenever the classified byte
stream of the input begins with `'.'`, the lenient output begins with
`'.'` — in particular `slugify_normal(".Pliczek", true) = ".Pliczek"`. -/
theorem leading_dot_not_suppressed (t : Translit) (leave : Bool) (s : String)
    (h : (s.data.flatMap (charBytes t)).head? = some 46) :
    (∀ x, isAlnumByte x = false → x ≠ 46 → pushCharN leave initN x = initN) ∧
    (slugify_normal t s leave).data.head? = some '.' ∧
    (∀ t' : Translit, slugify_normal t' ".Pliczek" true = ".Pliczek") := by
  refine ⟨fun x hx h46 => pushCharN_sep hx h46, ?_, ?_⟩
  · unfold slugify_normal slugifyNormalBytes
    rw [foldN_flatten t leave s.data]
    obtain ⟨rest, hrest⟩ : ∃ rest, s.data.flatMap (charBytes t) = 46 :: rest := by
      cases hsb : s.data.flatMap (charBytes t) with
      | nil => rw [hsb] at h; exact absurd h (by simp)
      | cons a r =>
        rw [hsb] at h
        simp only [List.head?_cons, Option.some_inj] at h
        exact ⟨r, by rw [h]⟩
    rw [hrest]
    show (bytesToString (trimNormal
      (pushBytesN leave (pushCharN leave initN 46) rest).slug)).data.head? = some '.'
    rw [show pushCharN leave initN 46 = ⟨[46], false, false, true⟩ from rfl]
    obtain ⟨m, hm⟩ := pushBytesN_slug_mono leave rest ⟨[46], false, false, true⟩
    rw [hm]
    show (bytesToString (trimNormal (46 :: m))).data.head? = some '.'
    rw [trimNormal_cons_keep (by decide)]
    rfl
  · intro t'
    rw [slugify_normal_ascii_congr t' (fun _ => none) _ _ (by decide)]
    rfl

/-- Witness for C9 at a concrete input whose first classified byte is a
dot. -/
theorem leading_dot_not_suppressed_witness :
    (slugify_normal (fun _ => none) ".a" true).data.head? = some '.' :=
  (leading_dot_not_suppressed (fun _ => none) true ".a" (by decide)).2.1

theorem lowerByte_eq_self {x : Nat} (h : ¬(65 ≤ x ∧ x ≤ 90)) : lowerByte x = x := by
  unfold lowerByte
  rw [if_neg h]

theorem pushCharN_lower (st : NState) (x : Nat) :
    pushCharN false (mapLowerN st) x = mapLowerN (pushCharN true st x) := by
  obtain ⟨l, pd, es, dw⟩ := st
  unfold mapLowerN pushCharN
  dsimp only
  by_cases h1 : (97 ≤ x ∧ x ≤ 122) ∨ (48 ≤ x ∧ x ≤ 57)
  · rw [if_pos h1, if_pos h1]
    dsimp only
    rw [List.map_append, List.map_cons, List.map_nil, lowerByte_eq_self (by omega)]
  · rw [if_neg h1, if_neg h1]
    by_cases h2 : 65 ≤ x ∧ x ≤ 90
    · rw [if_pos h2, if_pos h2]
      dsimp only
      rw [List.map_append, List.map_cons, List.map_nil]
      rw [show (if (false = true) then x else x - 65 + 97) = x - 65 + 97 from
        if_neg (by simp)]
      rw [show (if (true = true) then x else x - 65 + 97) = x from if_pos rfl]
      rw [show lowerByte x = x - 65 + 97 from by unfold lowerByte; rw [if_pos h2]]
    · rw [if_neg h2, if_neg h2]
      by_cases h3 : x = 32 ∨ x = 95
      · rw [if_pos h3, if_pos h3]
        by_cases h4 : es = true
        · rw [if_pos h4, if_pos h4]
        · rw [if_neg h4, if_neg h4]
          dsimp only
          rw [List.map_append, List.map_cons, List.map_nil,
            lowerByte_eq_self (by omega)]
      · rw [if_neg h3, if_neg h3]
        by_cases h5 : x = 46
        · rw [if_pos h5, if_pos h5]
          by_cases h6 : dw = true
          · rw [if_pos h6, if_pos h6]
          · rw [if_neg h6, if_neg h6]
            dsimp only
            rw [List.map_append, List.map_cons, List.map_nil,
              lowerByte_eq_self (by omega)]
        · rw [if_neg h5, if_neg h5]
          by_cases h7 : pd = true
          · rw [if_pos h7, if_pos h7]
          · rw [if_neg h7, if_neg h7]
            dsimp only
            rw [List.map_append, List.map_cons, List.map_nil,
              lowerByte_eq_self (by omega)]

theorem pushBytesN_lower :
    ∀ (bl : List Nat) (st : NState),
      pushBytesN false (mapLowerN st) bl = mapLowerN (pushBytesN true st bl)
  | [], _ => rfl
  | x :: rest, st => by
    show pushBytesN false (pushCharN false (mapLowerN st) x) rest = _
    rw [pushCharN_lower st x]
    exact pushBytesN_lower rest (pushCharN true st x)

theorem lowerByte_trim_class (a : Nat) :
    ((lowerByte a == 45 || lowerByte a == 32)) = ((a == 45) || (a == 32)) := by
  have hne : ∀ b c : Nat, b ≠ c → (b == c) = false := by
    intro b c h
    simpa using h
  unfold lowerByte
  by_cases h : 65 ≤ a ∧ a ≤ 90
  · rw [if_pos h]
    rw [hne _ _ (by omega : a - 65 + 97 ≠ 45), hne _ _ (by omega : a - 65 + 97 ≠ 32),
      hne _ _ (by omega : a ≠ 45), hne _ _ (by omega : a ≠ 32)]
  · rw [if_neg h]

theorem trimNormal_map_lower :
    ∀ (l : List Nat), trimNormal (l.map lowerByte) = (trimNormal l).map lowerByte
  | [] => rfl
  | a :: rest => by
    show trimNormal (lowerByte a :: rest.map lowerByte) = _
    rw [trimNormal, trimNormal]
    rw [trimNormal_map_lower rest, lowerByte_trim_class a]
    have hemp : ((trimNormal rest).map lowerByte).isEmpty = (trimNormal rest).isEmpty := by
      cases trimNormal rest <;> rfl
    rw [hemp]
    by_cases hc : ((trimNormal rest).isEmpty && ((a == 45) || (a == 32))) = true
    · rw [if_pos hc, if_pos hc]
      rfl
    · rw [if_neg hc, if_neg hc]
      rfl

theorem slugifyNormalBytes_lower (t : Translit) (cs : List Char) :
    slugifyNormalBytes t false cs = (slugifyNormalBytes t true cs).map lowerByte := by
  unfold slugifyNormalBytes
  rw [foldN_flatten t false, foldN_flatten t true]
  have h := pushBytesN_lower (cs.flatMap (charBytes t)) initN
  rw [show mapLowerN initN = initN from rfl] at h
  rw [h]
  show trimNormal ((pushBytesN true initN (cs.flatMap (charBytes t))).slug.map lowerByte) = _
  rw [trimNormal_map_lower]

/-- C10: the `preserve_case` option only affects letter case — the
lenient slug with `preserve_case = false` is exactly the ASCII
lowercasing of the slug with `preserve_case = true`, and in particular
both outputs have the same length. -/
theorem slugify_normal_case_flag (t : Translit) (s : String) :
    slugify_normal t s false = asciiLowerString (slugify_normal t s true) ∧
    (slugify_normal t s false).length = (slugify_normal t s true).length := by
  have hmain : slugify_normal t s false = asciiLowerString (slugify_normal t s true) := by
    unfold slugify_normal asciiLowerString bytesToString
    rw [slugifyNormalBytes_lower t s.data]
    show (⟨((slugifyNormalBytes t true s.data).map lowerByte).map Char.ofNat⟩ : String) = _
    rw [List.map_map, List.map_map]
    have hlt : ∀ x ∈ slugifyNormalBytes t true s.data, x < 128 :=
      lenientShape_all_lt (lenientShape_slugifyNormalBytes t true s.data)
    have hfun : ∀ x ∈ slugifyNormalBytes t true s.data,
        (Char.ofNat ∘ lowerByte) x =
          ((fun c => Char.ofNat (lowerByte c.toNat)) ∘ Char.ofNat) x := by
      intro x hx
      show Char.ofNat (lowerByte x) = Char.ofNat (lowerByte (Char.ofNat x).toNat)
      rw [char_toNat_ofNat (hlt x hx)]
    rw [List.map_congr_left hfun]
  refine ⟨hmain, ?_⟩
  rw [hmain]
  show (asciiLowerString (slugify_normal t s true)).data.length = _
  unfold asciiLowerString
  rw [List.length_map]
  rfl
